import Mathlib

/-!
Verification of the Huffman text compressor in src/main.py.

The Python code is shallowly embedded as follows.

* Python strings are lists of characters (List Char); bit strings are lists
  of the characters '0' and '1', exactly as in the source, which manipulates
  them as ordinary strings.
* HuffmanNode objects carry an optional character, an integer frequency and
  two optional child references.  We represent the four possible
  child-presence shapes by four constructors of one plain inductive type
  (node0 = both children absent, nodeL / nodeR = only left / only right
  present, node2 = both present); this is isomorphic to the Python record
  with two optional fields and keeps all recursions structural.
* The MinHeap class stores its nodes in a Python list; we embed it as a
  List HNode with the same index arithmetic.  The recursions of
  heapify_up / heapify_down and of the build_tree while-loop are embedded
  with an explicit fuel argument; call sites pass fuel large enough that the
  fuel-exhaustion branch is never taken (the specification lemmas below
  carry the corresponding bounds).
* Exceptions (AttributeError on a missing child during decode, KeyError on
  a missing code) are modelled by Option: none = the call raises.
* pickle.dumps / pickle.loads serialize the dictionary
  {tree, data, padding, original_length} and are inverse to each other on
  such dictionaries; the container is therefore modelled by the structure
  CompressedData holding those four fields, and compress / decompress act
  on it directly.
-/

set_option maxHeartbeats 1000000

namespace Huffman

/-- Embedding of the Python HuffmanNode: an optional character, a
frequency, and two optional children.  The four constructors enumerate
which children are present: node0 has none, nodeL only a left child,
nodeR only a right child, node2 both. -/
inductive HNode where
  | node0 (char : Option Char) (freq : Nat)
  | nodeL (char : Option Char) (freq : Nat) (l : HNode)
  | nodeR (char : Option Char) (freq : Nat) (r : HNode)
  | node2 (char : Option Char) (freq : Nat) (l : HNode) (r : HNode)
deriving DecidableEq, Repr

namespace HNode

/-- The char field of a node. -/
def char : HNode → Option Char
  | node0 c _ => c
  | nodeL c _ _ => c
  | nodeR c _ _ => c
  | node2 c _ _ _ => c

/-- The freq field of a node. -/
def freq : HNode → Nat
  | node0 _ f => f
  | nodeL _ f _ => f
  | nodeR _ f _ => f
  | node2 _ f _ _ => f

/-- The left field of a node (None when absent). -/
def left : HNode → Option HNode
  | node0 _ _ => none
  | nodeL _ _ l => some l
  | nodeR _ _ _ => none
  | node2 _ _ l _ => some l

/-- The right field of a node (None when absent). -/
def right : HNode → Option HNode
  | node0 _ _ => none
  | nodeL _ _ _ => none
  | nodeR _ _ r => some r
  | node2 _ _ _ r => some r

end HNode

/-- Default node used as the out-of-range value of list indexing; the
embedded code only indexes in bounds, so it is never observed. -/
def dum : HNode := HNode.node0 none 0

/-- Read index i of the heap array (Python heap[i]). -/
def nth (l : List HNode) (i : Nat) : HNode := l.getD i dum

/-- MinHeap.swap: exchange the entries at indices i and j. -/
def swap (l : List HNode) (i j : Nat) : List HNode :=
  (l.set i (nth l j)).set j (nth l i)

/-- MinHeap._heapify_up, with fuel; callers pass fuel = i, which suffices
because the index (i-1)/2 strictly decreases. -/
def heapifyUp : Nat → List HNode → Nat → List HNode
  | 0, l, _ => l
  | fuel + 1, l, i =>
    if 0 < i ∧ (nth l i).freq < (nth l ((i - 1) / 2)).freq then
      heapifyUp fuel (swap l i ((i - 1) / 2)) ((i - 1) / 2)
    else l

/-- MinHeap.insert: append, then sift up from the last index. -/
def insert (l : List HNode) (x : HNode) : List HNode :=
  heapifyUp l.length (l ++ [x]) l.length

/-- The index among i and its in-range children holding the smallest
frequency, computed exactly as min_idx in MinHeap._heapify_down. -/
def minIdx (l : List HNode) (i : Nat) : Nat :=
  let m1 := if 2 * i + 1 < l.length ∧ (nth l (2 * i + 1)).freq < (nth l i).freq
            then 2 * i + 1 else i
  if 2 * i + 2 < l.length ∧ (nth l (2 * i + 2)).freq < (nth l m1).freq
  then 2 * i + 2 else m1

/-- MinHeap._heapify_down, with fuel; callers pass fuel = l.length, which
suffices because the index strictly increases and stays below the
length. -/
def heapifyDown : Nat → List HNode → Nat → List HNode
  | 0, l, _ => l
  | fuel + 1, l, i =>
    if minIdx l i ≠ i then heapifyDown fuel (swap l i (minIdx l i)) (minIdx l i)
    else l

/-- MinHeap.extract_min: return None on an empty heap; pop the single
element of a one-element heap; otherwise return the root, move the last
element to the root and sift it down. -/
def extractMin (l : List HNode) : Option HNode × List HNode :=
  match l with
  | [] => (none, [])
  | [x] => (some x, [])
  | x :: y :: rest =>
    (some x,
      heapifyDown (rest.length + 1)
        ((List.dropLast (x :: y :: rest)).set 0 (nth (x :: y :: rest) (rest.length + 1))) 0)

/-- The distinct characters of the text in first-occurrence order: the
iteration order of the keys of Counter(text). -/
def firstOccurs (text : List Char) : List Char :=
  text.foldl (fun acc c => if c ∈ acc then acc else acc ++ [c]) []

/-- A fresh leaf node HuffmanNode(char, freq): both children are None. -/
def mkLeaf (c : Char) (f : Nat) : HNode := HNode.node0 (some c) f

/-- The heap after inserting one leaf per distinct character, in Counter
iteration order, as in HuffmanEncoder.build_tree. -/
def initialHeap (text : List Char) : List HNode :=
  (firstOccurs text).foldl (fun h c => insert h (mkLeaf c (text.count c))) []

/-- The merged internal node created in the build loop: char None, weight
the sum of the extracted weights, first extracted on the left. -/
def mkMerged (a b : HNode) : HNode := HNode.node2 none (a.freq + b.freq) a b

/-- The while-loop of build_tree: while more than one node remains,
extract two minima, merge, reinsert; finally extract the root.  Fuel is
the initial heap size, which suffices because each iteration shrinks the
heap by exactly one. -/
def buildLoop : Nat → List HNode → Option HNode
  | 0, l => (extractMin l).1
  | fuel + 1, l =>
    if 1 < l.length then
      match extractMin l with
      | (some a, l1) =>
        match extractMin l1 with
        | (some b, l2) => buildLoop fuel (insert l2 (mkMerged a b))
        | (none, _) => none
      | (none, _) => none
    else (extractMin l).1

/-- HuffmanEncoder.build_tree: None on empty text, otherwise run the heap
construction. -/
def buildTree (text : List Char) : Option HNode :=
  if text = [] then none
  else buildLoop (initialHeap text).length (initialHeap text)

/-- HuffmanEncoder._generate_codes on a non-None node: if the node carries
a character, record it with the accumulated code (or "0" when the
accumulated code is empty); otherwise recurse left with code+"0" and
right with code+"1" (an absent child contributes nothing, as the Python
recursion returns at once on None). -/
def genCodes : HNode → List Char → List (Char × List Char)
  | HNode.node0 (some c) _, code => [(c, if code = [] then ['0'] else code)]
  | HNode.nodeL (some c) _ _, code => [(c, if code = [] then ['0'] else code)]
  | HNode.nodeR (some c) _ _, code => [(c, if code = [] then ['0'] else code)]
  | HNode.node2 (some c) _ _ _, code => [(c, if code = [] then ['0'] else code)]
  | HNode.node0 none _, _ => []
  | HNode.nodeL none _ l, code => genCodes l (code ++ ['0'])
  | HNode.nodeR none _ r, code => genCodes r (code ++ ['1'])
  | HNode.node2 none _ l r, code =>
      genCodes l (code ++ ['0']) ++ genCodes r (code ++ ['1'])

/-- HuffmanEncoder._generate_codes at the top level (returns at once on a
None root). -/
def generateCodes : Option HNode → List Char → List (Char × List Char)
  | none, _ => []
  | some n, code => genCodes n code

/-- Lookup in the codes dictionary.  The traversal writes each entry with
a plain dict assignment, so a later entry for the same key would win; we
therefore search the entry list from the right.  None models the KeyError
raised on a missing key. -/
def dictGet (m : List (Char × List Char)) (c : Char) : Option (List Char) :=
  (m.reverse.find? (fun p => p.1 == c)).map (fun p => p.2)

/-- HuffmanEncoder.encode: empty text gives ("", {}); otherwise build the
tree, generate the codes, and concatenate the code of every character of
the text in input order. -/
def encode (text : List Char) : Option (List Char × List (Char × List Char)) :=
  if text = [] then some ([], [])
  else
    let codes := generateCodes (buildTree text) []
    (text.mapM (fun c => dictGet codes c)).map (fun bs => (bs.flatten, codes))

/-- Value of int(s, 2) for a string of '0'/'1' characters. -/
def bitsToNat (l : List Char) : Nat :=
  l.foldl (fun a c => 2 * a + (if c = '1' then 1 else 0)) 0

/-- Value of format(n, with w binary digits), most significant bit first;
decompress uses w = 8. -/
def natToBitsW : Nat → Nat → List Char
  | 0, _ => []
  | w + 1, n => natToBitsW w (n / 2) ++ [if n % 2 = 1 then '1' else '0']

/-- format(byte, eight binary digits) from FileCompressor.decompress. -/
def natToBits8 (n : Nat) : List Char := natToBitsW 8 n

/-- The byte-packing loop of FileCompressor.compress: take successive
groups of eight bit characters and convert each with int(-, 2). -/
def packBytes : List Char → List Nat
  | [] => []
  | a :: b :: c :: d :: e :: f :: g :: h :: rest =>
      bitsToNat [a, b, c, d, e, f, g, h] :: packBytes rest
  | l => [bitsToNat l]

/-- The padding count recorded by compress for an encoded bit string e:
padding = 8 - len(e) % 8. -/
def bitPad (e : List Char) : Nat := 8 - e.length % 8

/-- The container dictionary pickled by compress: tree, packed bytes,
padding count and original text length. -/
structure CompressedData where
  tree : Option HNode
  data : List Nat
  padding : Nat
  original_length : Nat
deriving DecidableEq, Repr

/-- FileCompressor.compress on a fresh compressor: encode, append
padding zero bits, pack into bytes, and store tree, bytes, padding and
original length.  The stored tree is self.encoder.root, which equals
build_tree(text) (and stays None for empty text). -/
def compress (text : List Char) : Option CompressedData :=
  (encode text).map (fun ec =>
    let padded := ec.1 ++ List.replicate (bitPad ec.1) '0'
    { tree := buildTree text
      data := packBytes padded
      padding := bitPad ec.1
      original_length := text.length })

/-- The bit-string reconstruction of decompress: expand every byte to
eight bits, concatenate, then drop the last padding bits (guarded, as in
the source, so that padding 0 drops nothing). -/
def unpackBits (data : List Nat) (padding : Nat) : List Char :=
  let bits := (data.map natToBits8).flatten
  if padding ≠ 0 then bits.take (bits.length - padding) else bits

/-- The decoding loop of HuffmanEncoder.decode: on each bit move to the
left child on '0' and to the right child otherwise; stepping into an
absent child raises (None); when the node reached carries a character,
emit it and restart from the root.  Bits exhausted mid-walk simply end
the loop. -/
def decodeLoop (root : HNode) : HNode → List Char → Option (List Char)
  | _, [] => some []
  | cur, bit :: rest =>
    match (if bit = '0' then cur.left else cur.right) with
    | none => none
    | some nxt =>
      match nxt.char with
      | some c => (decodeLoop root root rest).map (fun d => c :: d)
      | none => decodeLoop root nxt rest

/-- HuffmanEncoder.decode: empty output on an empty bit string or a None
root, otherwise run the loop from the root. -/
def decode (encoded : List Char) (root : Option HNode) : Option (List Char) :=
  match root with
  | none => some []
  | some r => if encoded = [] then some [] else decodeLoop r r encoded

/-- FileCompressor.decompress on a parsed container: rebuild the bit
string, strip the padding, and decode against the stored tree. -/
def decompress (cd : CompressedData) : Option (List Char) :=
  decode (unpackBits cd.data cd.padding) cd.tree

/-- decompress(compress(text)) on fresh compressor objects. -/
def roundTrip (text : List Char) : Option (List Char) :=
  (compress text).bind decompress

/-- The heap-order invariant of the Python MinHeap array: every non-root
entry is at least its parent. -/
def heapInv (l : List HNode) : Prop :=
  ∀ j, 0 < j → j < l.length → (nth l ((j - 1) / 2)).freq ≤ (nth l j).freq

/-- Invariant of the sift-up loop at index i: every parent-child pair not
ending at i is ordered, and the children of i are at least the
grandparent of i. -/
def upInv (l : List HNode) (i : Nat) : Prop :=
  (∀ j, 0 < j → j < l.length → j ≠ i →
    (nth l ((j - 1) / 2)).freq ≤ (nth l j).freq) ∧
  (∀ j, 0 < j → j < l.length → (j - 1) / 2 = i → 0 < i →
    (nth l ((i - 1) / 2)).freq ≤ (nth l j).freq)

/-- Invariant of the sift-down loop at index i: every parent-child pair
not starting at i is ordered, and the children of i are at least the
parent of i. -/
def downInv (l : List HNode) (i : Nat) : Prop :=
  (∀ j, 0 < j → j < l.length → (j - 1) / 2 ≠ i →
    (nth l ((j - 1) / 2)).freq ≤ (nth l j).freq) ∧
  (∀ j, 0 < j → j < l.length → (j - 1) / 2 = i → 0 < i →
    (nth l ((i - 1) / 2)).freq ≤ (nth l j).freq)

/-- The greedy Huffman construction as a relation between a multiset of
pending nodes and the final root: repeatedly replace a minimum node a and
a node b minimal among the rest by the merged node with a on the left,
until a single node remains. -/
inductive Greedy : Multiset HNode → HNode → Prop where
  | single (t : HNode) : Greedy {t} t
  | step (a b : HNode) (s : Multiset HNode) (t : HNode)
      (ha : ∀ x ∈ a ::ₘ b ::ₘ s, a.freq ≤ x.freq)
      (hb : ∀ x ∈ b ::ₘ s, b.freq ≤ x.freq)
      (next : Greedy (mkMerged a b ::ₘ s) t) :
      Greedy (a ::ₘ b ::ₘ s) t

/-- The multiset of leaves the build loop starts from: one leaf per
distinct character with its count. -/
def initialLeaves (text : List Char) : Multiset HNode :=
  ((firstOccurs text).map (fun c => mkLeaf c (text.count c)) : List HNode)

/-- Structural well-formedness of a built tree: a leaf carries a
character and has no children; an internal node carries no character, has
both children, and its weight is the sum of the children's weights.  In
particular every internal node has exactly two children. -/
def treeOK : HNode → Prop
  | HNode.node0 (some _) _ => True
  | HNode.node2 none f l r => f = l.freq + r.freq ∧ treeOK l ∧ treeOK r
  | _ => False

/-- The multiset of characters at the leaves of a built tree. -/
def leafMS : HNode → Multiset Char
  | HNode.node0 (some c) _ => {c}
  | HNode.node2 none _ l r => leafMS l + leafMS r
  | _ => 0

/-- List s is an initial segment of list t. -/
def IsPre (s t : List Char) : Prop := ∃ u, s ++ u = t

/-! ### Indexing and swap lemmas for the heap array -/

theorem nth_set_self (l : List HNode) (i : Nat) (x : HNode) (h : i < l.length) :
    nth (l.set i x) i = x := by
  induction l generalizing i with
  | nil => simp at h
  | cons a t ih =>
    cases i with
    | zero => simp [nth]
    | succ j => simpa [nth, List.getD_cons_succ] using ih j (by simpa using h)

theorem nth_set_other (l : List HNode) (i j : Nat) (x : HNode) (h : i ≠ j) :
    nth (l.set i x) j = nth l j := by
  induction l generalizing i j with
  | nil => simp [nth]
  | cons a t ih =>
    cases i with
    | zero =>
      cases j with
      | zero => exact absurd rfl h
      | succ k => simp [nth]
    | succ i' =>
      cases j with
      | zero => simp [nth]
      | succ k => simpa [nth, List.getD_cons_succ] using ih i' k (by omega)

theorem length_swap (l : List HNode) (i j : Nat) :
    (swap l i j).length = l.length := by
  simp [swap, List.length_set]

theorem nth_swap_snd (l : List HNode) (i j : Nat) (hj : j < l.length) :
    nth (swap l i j) j = nth l i := by
  rw [swap, nth_set_self]
  simpa using hj

theorem nth_swap_fst (l : List HNode) (i j : Nat) (hi : i < l.length) (hij : i ≠ j) :
    nth (swap l i j) i = nth l j := by
  rw [swap, nth_set_other _ _ _ _ (Ne.symm hij), nth_set_self _ _ _ hi]

theorem nth_swap_other (l : List HNode) (i j k : Nat) (hki : k ≠ i) (hkj : k ≠ j) :
    nth (swap l i j) k = nth l k := by
  rw [swap, nth_set_other _ _ _ _ (Ne.symm hkj), nth_set_other _ _ _ _ (Ne.symm hki)]

theorem nth_mem (l : List HNode) (j : Nat) (h : j < l.length) : nth l j ∈ l := by
  induction l generalizing j with
  | nil => simp at h
  | cons a t ih =>
    cases j with
    | zero => simp [nth]
    | succ k =>
      have := ih k (by simpa using h)
      simp only [nth, List.getD_cons_succ] at *
      exact List.mem_cons_of_mem a this

theorem mem_nth (l : List HNode) (x : HNode) (h : x ∈ l) :
    ∃ j, j < l.length ∧ nth l j = x := by
  induction l with
  | nil => simp at h
  | cons a t ih =>
    rcases List.mem_cons.mp h with h1 | h2
    · exact ⟨0, by simp [nth, h1.symm]⟩
    · obtain ⟨j, hj, hx⟩ := ih h2
      exact ⟨j + 1, by simpa using hj, by simpa [nth, List.getD_cons_succ] using hx⟩

theorem cons_set_perm (t : List HNode) (k : Nat) (a : HNode) (hk : k < t.length) :
    List.Perm (a :: t) (nth t k :: t.set k a) := by
  induction t generalizing k with
  | nil => simp at hk
  | cons x t' ih =>
    cases k with
    | zero => simpa [nth] using List.Perm.swap x a t'
    | succ k' =>
      have h1 : List.Perm (a :: x :: t') (x :: a :: t') := List.Perm.swap x a t'
      have h2 : List.Perm (x :: a :: t') (x :: (nth t' k' :: t'.set k' a)) :=
        List.Perm.cons x (ih k' (by simpa using hk))
      have h3 : List.Perm (x :: (nth t' k' :: t'.set k' a))
          (nth t' k' :: x :: t'.set k' a) := List.Perm.swap (nth t' k') x _
      simpa [nth, List.getD_cons_succ] using (h1.trans h2).trans h3

theorem swap_perm (l : List HNode) (i j : Nat) (hi : i < l.length) (hj : j < l.length) :
    List.Perm (swap l i j) l := by
  induction l generalizing i j with
  | nil => simp at hi
  | cons x t ih =>
    cases i with
    | zero =>
      cases j with
      | zero => simp [swap, nth]
      | succ k =>
        have hk : k < t.length := by simpa using hj
        have : swap (x :: t) 0 (k + 1) = nth t k :: t.set k x := by
          simp [swap, nth, List.getD_cons_succ]
        rw [this]
        exact (cons_set_perm t k x hk).symm
    | succ i' =>
      cases j with
      | zero =>
        have hk : i' < t.length := by simpa using hi
        have : swap (x :: t) (i' + 1) 0 = nth t i' :: t.set i' x := by
          simp [swap, nth, List.getD_cons_succ]
        rw [this]
        exact (cons_set_perm t i' x hk).symm
      | succ j' =>
        have : swap (x :: t) (i' + 1) (j' + 1) = x :: swap t i' j' := by
          simp [swap, nth, List.getD_cons_succ]
        rw [this]
        exact List.Perm.cons x (ih i' j' (by simpa using hi) (by simpa using hj))

/-! ### The root of a heap is minimal -/

theorem root_min (l : List HNode) (h : heapInv l) :
    ∀ j, j < l.length → (nth l 0).freq ≤ (nth l j).freq := by
  intro j
  induction j using Nat.strong_induction_on with
  | _ j ih =>
    intro hj
    rcases Nat.eq_zero_or_pos j with h0 | hpos
    · subst h0; exact le_refl _
    · have hedge := h j hpos hj
      have hpar := ih ((j - 1) / 2) (by omega) (by omega)
      exact le_trans hpar hedge

/-! ### Sift-up re-establishes the heap invariant -/

theorem heapifyUp_go : ∀ (f : Nat) (l : List HNode) (i : Nat), i ≤ f → i < l.length →
    upInv l i → heapInv (heapifyUp f l i) ∧ List.Perm (heapifyUp f l i) l := by
  intro f
  induction f with
  | zero =>
    intro l i hf _ hinv
    have hi0 : i = 0 := by omega
    subst hi0
    refine ⟨?_, List.Perm.refl l⟩
    intro j hj hlen
    exact hinv.1 j hj hlen (by omega)
  | succ f ih =>
    intro l i hf hil hinv
    have heq : heapifyUp (f + 1) l i =
        if 0 < i ∧ (nth l i).freq < (nth l ((i - 1) / 2)).freq then
          heapifyUp f (swap l i ((i - 1) / 2)) ((i - 1) / 2) else l := rfl
    rw [heq]
    by_cases hc : 0 < i ∧ (nth l i).freq < (nth l ((i - 1) / 2)).freq
    · rw [if_pos hc]
      obtain ⟨hipos, hlt⟩ := hc
      have hpilt : (i - 1) / 2 < i := by omega
      have hpil : (i - 1) / 2 < l.length := lt_trans hpilt hil
      have hlen' : (swap l i ((i - 1) / 2)).length = l.length := length_swap l i _
      have hvp : nth (swap l i ((i - 1) / 2)) ((i - 1) / 2) = nth l i :=
        nth_swap_snd l i _ hpil
      have hvi : nth (swap l i ((i - 1) / 2)) i = nth l ((i - 1) / 2) :=
        nth_swap_fst l i _ hil (by omega)
      have hvo : ∀ k, k ≠ i → k ≠ (i - 1) / 2 →
          nth (swap l i ((i - 1) / 2)) k = nth l k := fun k h1 h2 =>
        nth_swap_other l i _ k h1 h2
      have hup : upInv (swap l i ((i - 1) / 2)) ((i - 1) / 2) := by
        constructor
        · intro j hj hjlen hjne
          rw [hlen'] at hjlen
          by_cases hji : j = i
          · rw [hji, hvi, hvp]
            exact le_of_lt hlt
          · rw [hvo j hji hjne]
            by_cases hpj : (j - 1) / 2 = i
            · rw [hpj, hvi]
              exact hinv.2 j hj hjlen hpj hipos
            · by_cases hpj2 : (j - 1) / 2 = (i - 1) / 2
              · rw [hpj2, hvp]
                have := hinv.1 j hj hjlen hji
                rw [hpj2] at this
                exact le_trans (le_of_lt hlt) this
              · rw [hvo _ hpj hpj2]
                exact hinv.1 j hj hjlen hji
        · intro j hj hjlen hpj hpipos
          rw [hlen'] at hjlen
          have hgp : ((i - 1) / 2 - 1) / 2 ≠ i := by omega
          have hgp2 : ((i - 1) / 2 - 1) / 2 ≠ (i - 1) / 2 := by omega
          rw [hvo _ hgp hgp2]
          by_cases hji : j = i
          · rw [hji, hvi]
            exact hinv.1 ((i - 1) / 2) hpipos hpil (by omega)
          · have hjpi : j ≠ (i - 1) / 2 := by omega
            rw [hvo j hji hjpi]
            have h1 : (nth l (((i - 1) / 2 - 1) / 2)).freq ≤ (nth l ((i - 1) / 2)).freq :=
              hinv.1 ((i - 1) / 2) hpipos hpil (by omega)
            have h2 : (nth l ((i - 1) / 2)).freq ≤ (nth l j).freq := by
              have := hinv.1 j hj hjlen hji
              rwa [hpj] at this
            exact le_trans h1 h2
      have hrec := ih (swap l i ((i - 1) / 2)) ((i - 1) / 2) (by omega)
        (by rw [hlen']; exact hpil) hup
      exact ⟨hrec.1, hrec.2.trans (swap_perm l i _ hil hpil)⟩
    · rw [if_neg hc]
      refine ⟨?_, List.Perm.refl l⟩
      intro j hj hlen
      by_cases hji : j = i
      · have : ¬ (nth l i).freq < (nth l ((i - 1) / 2)).freq := fun hl => hc ⟨hji ▸ hj, hl⟩
        rw [hji]
        exact le_of_not_lt this
      · exact hinv.1 j hj hlen hji

theorem nth_append_left (l l' : List HNode) (k : Nat) (h : k < l.length) :
    nth (l ++ l') k = nth l k := by
  induction l generalizing k with
  | nil => simp at h
  | cons a t ih =>
    cases k with
    | zero => simp [nth]
    | succ k' => simpa [nth, List.getD_cons_succ] using ih k' (by simpa using h)

theorem insert_spec (l : List HNode) (x : HNode) (h : heapInv l) :
    heapInv (insert l x) ∧ List.Perm (insert l x) (x :: l) := by
  have hup : upInv (l ++ [x]) l.length := by
    constructor
    · intro j hj hjlen hjne
      have hjl : j < l.length := by
        simp only [List.length_append, List.length_cons, List.length_nil] at hjlen
        omega
      rw [nth_append_left l [x] j hjl, nth_append_left l [x] _ (by omega)]
      exact h j hj hjl
    · intro j hj hjlen hpj _
      simp only [List.length_append, List.length_cons, List.length_nil] at hjlen
      omega
  have hgo := heapifyUp_go l.length (l ++ [x]) l.length (le_refl _)
    (by simp) hup
  exact ⟨hgo.1, hgo.2.trans (List.perm_append_singleton x l)⟩

/-! ### Sift-down re-establishes the heap invariant -/

theorem minIdx_cases (l : List HNode) (i : Nat) :
    (minIdx l i = i ∧
      (2 * i + 1 < l.length → (nth l i).freq ≤ (nth l (2 * i + 1)).freq) ∧
      (2 * i + 2 < l.length → (nth l i).freq ≤ (nth l (2 * i + 2)).freq)) ∨
    (minIdx l i ≠ i ∧ (minIdx l i = 2 * i + 1 ∨ minIdx l i = 2 * i + 2) ∧
      minIdx l i < l.length ∧ (nth l (minIdx l i)).freq < (nth l i).freq ∧
      (2 * i + 1 < l.length → (nth l (minIdx l i)).freq ≤ (nth l (2 * i + 1)).freq) ∧
      (2 * i + 2 < l.length → (nth l (minIdx l i)).freq ≤ (nth l (2 * i + 2)).freq)) := by
  unfold minIdx
  by_cases h1 : 2 * i + 1 < l.length ∧ (nth l (2 * i + 1)).freq < (nth l i).freq
  · rw [if_pos h1]
    by_cases h2 : 2 * i + 2 < l.length ∧ (nth l (2 * i + 2)).freq < (nth l (2 * i + 1)).freq
    · rw [if_pos h2]
      right
      refine ⟨by omega, Or.inr rfl, h2.1, lt_trans h2.2 h1.2, fun _ => le_of_lt h2.2,
        fun _ => le_refl _⟩
    · rw [if_neg h2]
      right
      refine ⟨by omega, Or.inl rfl, h1.1, h1.2, fun _ => le_refl _, fun hlen => ?_⟩
      have : ¬ (nth l (2 * i + 2)).freq < (nth l (2 * i + 1)).freq := fun hl => h2 ⟨hlen, hl⟩
      exact le_of_not_lt this
  · rw [if_neg h1]
    by_cases h2 : 2 * i + 2 < l.length ∧ (nth l (2 * i + 2)).freq < (nth l i).freq
    · rw [if_pos h2]
      right
      refine ⟨by omega, Or.inr rfl, h2.1, h2.2, fun hlen => ?_, fun _ => le_refl _⟩
      have : ¬ (nth l (2 * i + 1)).freq < (nth l i).freq := fun hl => h1 ⟨hlen, hl⟩
      exact le_trans (le_of_lt h2.2) (le_of_not_lt this)
    · rw [if_neg h2]
      left
      refine ⟨rfl, fun hlen => ?_, fun hlen => ?_⟩
      · have : ¬ (nth l (2 * i + 1)).freq < (nth l i).freq := fun hl => h1 ⟨hlen, hl⟩
        exact le_of_not_lt this
      · have : ¬ (nth l (2 * i + 2)).freq < (nth l i).freq := fun hl => h2 ⟨hlen, hl⟩
        exact le_of_not_lt this

theorem heapifyDown_go : ∀ (f : Nat) (l : List HNode) (i : Nat), l.length - i ≤ f →
    downInv l i → heapInv (heapifyDown f l i) ∧ List.Perm (heapifyDown f l i) l := by
  intro f
  induction f with
  | zero =>
    intro l i hf hinv
    refine ⟨?_, List.Perm.refl l⟩
    intro j hj hjlen
    have hjlen' : j < l.length := hjlen
    exact hinv.1 j hj hjlen' (by omega)
  | succ f ih =>
    intro l i hf hinv
    have heq : heapifyDown (f + 1) l i =
        if minIdx l i ≠ i then heapifyDown f (swap l i (minIdx l i)) (minIdx l i)
        else l := rfl
    rw [heq]
    rcases minIdx_cases l i with ⟨hm, hc1, hc2⟩ | ⟨hne, hchild, hmlen, hlt, hb1, hb2⟩
    · rw [if_neg (by simpa using hm)]
      refine ⟨?_, List.Perm.refl l⟩
      intro j hj hjlen
      by_cases hpj : (j - 1) / 2 = i
      · have hj12 : j = 2 * i + 1 ∨ j = 2 * i + 2 := by omega
        rcases hj12 with hj1 | hj2
        · subst hj1
          rw [hpj]
          exact hc1 hjlen
        · subst hj2
          rw [hpj]
          exact hc2 hjlen
      · exact hinv.1 j hj hjlen hpj
    · rw [if_pos hne]
      have him : i < minIdx l i := by rcases hchild with h | h <;> omega
      have hil : i < l.length := lt_trans him hmlen
      have hlen' : (swap l i (minIdx l i)).length = l.length := length_swap l i _
      have hvm : nth (swap l i (minIdx l i)) (minIdx l i) = nth l i :=
        nth_swap_snd l i _ hmlen
      have hvi : nth (swap l i (minIdx l i)) i = nth l (minIdx l i) :=
        nth_swap_fst l i _ hil (by omega)
      have hvo : ∀ k, k ≠ i → k ≠ minIdx l i →
          nth (swap l i (minIdx l i)) k = nth l k := fun k ha hb =>
        nth_swap_other l i _ k ha hb
      have hdown : downInv (swap l i (minIdx l i)) (minIdx l i) := by
        constructor
        · intro j hj hjlen hpjm
          rw [hlen'] at hjlen
          by_cases hji : j = i
          · have hipos : 0 < i := by omega
            have hgpm : (i - 1) / 2 ≠ minIdx l i := by omega
            have hgpi : (i - 1) / 2 ≠ i := by omega
            rw [hji, hvi, hvo ((i - 1) / 2) hgpi hgpm]
            have hmp : (minIdx l i - 1) / 2 = i := by rcases hchild with h | h <;> omega
            exact hinv.2 (minIdx l i) (by omega) hmlen hmp hipos
          · by_cases hpj : (j - 1) / 2 = i
            · by_cases hjm : j = minIdx l i
              · rw [hjm] at hpj
                rw [hjm, hpj, hvi, hvm]
                exact le_of_lt hlt
              · rw [hvo j hji hjm, hpj, hvi]
                have hj12 : j = 2 * i + 1 ∨ j = 2 * i + 2 := by omega
                rcases hj12 with hj1 | hj2
                · subst hj1
                  exact hb1 hjlen
                · subst hj2
                  exact hb2 hjlen
            · have hjm : j ≠ minIdx l i := by
                intro hcon
                rw [hcon] at hpj
                exact hpj (by rcases hchild with h | h <;> omega)
              rw [hvo j hji hjm, hvo ((j - 1) / 2) hpj hpjm]
              exact hinv.1 j hj hjlen hpj
        · intro j hj hjlen hpjm hmpos
          rw [hlen'] at hjlen
          have hmp : (minIdx l i - 1) / 2 = i := by rcases hchild with h | h <;> omega
          rw [hmp, hvi]
          have hji : j ≠ i := by omega
          have hjm : j ≠ minIdx l i := by omega
          rw [hvo j hji hjm]
          have := hinv.1 j hj hjlen (by omega)
          rwa [hpjm] at this
      have hrec := ih (swap l i (minIdx l i)) (minIdx l i)
        (by rw [hlen']; omega) hdown
      exact ⟨hrec.1, hrec.2.trans (swap_perm l i _ hil hmlen)⟩

/-! ### extract_min returns a minimum and preserves the invariant -/

theorem nth_dropLast (l : List HNode) (k : Nat) (h : k < l.length - 1) :
    nth (List.dropLast l) k = nth l k := by
  have hne : l ≠ [] := by
    intro hcon
    rw [hcon] at h
    simp at h
  conv_rhs => rw [← List.dropLast_append_getLast hne]
  rw [nth_append_left _ _ k (by simpa [List.length_dropLast] using h)]

theorem nth_last (t : List HNode) (h : t ≠ []) :
    nth t (t.length - 1) = t.getLast h := by
  induction t with
  | nil => exact absurd rfl h
  | cons a t' ih =>
    cases t' with
    | nil => simp [nth, List.getLast]
    | cons b t'' =>
      have hne : b :: t'' ≠ [] := by simp
      have h1 : (a :: b :: t'').length - 1 = (b :: t'').length - 1 + 1 := by
        simp
      rw [h1]
      have h2 : nth (a :: b :: t'') ((b :: t'').length - 1 + 1) =
          nth (b :: t'') ((b :: t'').length - 1) := by
        simp [nth, List.getD_cons_succ]
      rw [h2, ih hne]
      exact (List.getLast_cons hne).symm

theorem extractMin_spec (l : List HNode) (h : heapInv l) (hne : l ≠ []) :
    ∃ m l', extractMin l = (some m, l') ∧ List.Perm l (m :: l') ∧ heapInv l' ∧
      ∀ x ∈ l, m.freq ≤ x.freq := by
  match l with
  | [] => exact absurd rfl hne
  | [x] =>
    refine ⟨x, [], rfl, List.Perm.refl _, ?_, ?_⟩
    · intro j hj hjlen
      simp at hjlen
    · intro z hz
      rcases List.mem_singleton.mp hz with rfl
      exact le_refl _
  | x :: y :: rest =>
    have hlen : (x :: y :: rest).length = rest.length + 2 := by simp
    have hlast : nth (x :: y :: rest) (rest.length + 1) = (y :: rest).getLast (by simp) := by
      have h1 : nth (x :: y :: rest) (rest.length + 1) = nth (y :: rest) rest.length := by
        simp [nth, List.getD_cons_succ]
      have h2 : (y :: rest).length - 1 = rest.length := by simp
      rw [h1, ← h2, nth_last (y :: rest) (by simp)]
    have hdrop : List.dropLast (x :: y :: rest) = x :: List.dropLast (y :: rest) := by
      simp
    have hL0 : (List.dropLast (x :: y :: rest)).set 0 (nth (x :: y :: rest) (rest.length + 1))
        = nth (x :: y :: rest) (rest.length + 1) :: List.dropLast (y :: rest) := by
      rw [hdrop]
      rfl
    have hL0len : ((List.dropLast (x :: y :: rest)).set 0
        (nth (x :: y :: rest) (rest.length + 1))).length = rest.length + 1 := by
      simp [List.length_set, List.length_dropLast]
    have hdown : downInv ((List.dropLast (x :: y :: rest)).set 0
        (nth (x :: y :: rest) (rest.length + 1))) 0 := by
      constructor
      · intro j hj hjlen hpj0
        rw [hL0len] at hjlen
        have hppos : 0 < (j - 1) / 2 := by omega
        have hv1 : nth ((List.dropLast (x :: y :: rest)).set 0
            (nth (x :: y :: rest) (rest.length + 1))) j = nth (x :: y :: rest) j := by
          rw [nth_set_other _ _ _ _ (by omega), nth_dropLast _ _ (by simp; omega)]
        have hv2 : nth ((List.dropLast (x :: y :: rest)).set 0
            (nth (x :: y :: rest) (rest.length + 1))) ((j - 1) / 2)
            = nth (x :: y :: rest) ((j - 1) / 2) := by
          rw [nth_set_other _ _ _ _ (by omega), nth_dropLast _ _ (by simp; omega)]
        rw [hv1, hv2]
        exact h j hj (by simp; omega)
      · intro j hj hjlen hpj h0
        omega
    have hgo := heapifyDown_go (rest.length + 1)
      ((List.dropLast (x :: y :: rest)).set 0 (nth (x :: y :: rest) (rest.length + 1))) 0
      (by rw [hL0len]; omega) hdown
    refine ⟨x, _, rfl, ?_, hgo.1, ?_⟩
    · have hyr : List.Perm (y :: rest) ((List.dropLast (x :: y :: rest)).set 0
          (nth (x :: y :: rest) (rest.length + 1))) := by
        rw [hL0, hlast]
        conv_lhs => rw [← List.dropLast_append_getLast (show (y :: rest) ≠ [] by simp)]
        exact List.perm_append_singleton _ _
      exact (List.Perm.cons x hyr).trans (List.Perm.cons x hgo.2.symm)
    · intro z hz
      obtain ⟨j, hj, hnth⟩ := mem_nth _ z hz
      have := root_min (x :: y :: rest) h j hj
      rw [hnth] at this
      exact this

/-! ### The build loop realises the greedy construction -/

theorem buildLoop_single (f : Nat) (x : HNode) : buildLoop f [x] = some x := by
  cases f <;> rfl

theorem buildLoop_spec : ∀ (f : Nat) (l : List HNode), l ≠ [] → l.length ≤ f + 1 →
    heapInv l → ∃ t, buildLoop f l = some t ∧ Greedy (↑l) t := by
  intro f
  induction f with
  | zero =>
    intro l hne hlen hinv
    match l with
    | [x] =>
      refine ⟨x, buildLoop_single 0 x, ?_⟩
      have : ((↑[x] : Multiset HNode)) = {x} := rfl
      rw [this]
      exact Greedy.single x
    | [] => exact absurd rfl hne
    | x :: y :: rest => simp at hlen
  | succ f ih =>
    intro l hne hlen hinv
    by_cases h1 : 1 < l.length
    · obtain ⟨a, l1, hext1, hperm1, hinv1, hmin1⟩ := extractMin_spec l hinv hne
      have hlen1 : l.length = l1.length + 1 := by
        have := hperm1.length_eq
        simpa using this
      have hne1 : l1 ≠ [] := by
        intro hcon
        rw [hcon] at hlen1
        simp at hlen1
        omega
      obtain ⟨b, l2, hext2, hperm2, hinv2, hmin2⟩ := extractMin_spec l1 hinv1 hne1
      have hlen2 : l1.length = l2.length + 1 := by
        have := hperm2.length_eq
        simpa using this
      have heq : buildLoop (f + 1) l =
          if 1 < l.length then
            match extractMin l with
            | (some a, l1) =>
              match extractMin l1 with
              | (some b, l2) => buildLoop f (insert l2 (mkMerged a b))
              | (none, _) => none
            | (none, _) => none
          else (extractMin l).1 := rfl
      have hred : buildLoop (f + 1) l = buildLoop f (insert l2 (mkMerged a b)) := by
        rw [heq, if_pos h1, hext1]
        show (match extractMin l1 with
          | (some b, l2) => buildLoop f (insert l2 (mkMerged a b))
          | (none, _) => none) = _
        rw [hext2]
      rw [hred]
      obtain ⟨hinv3, hperm3⟩ := insert_spec l2 (mkMerged a b) hinv2
      have hlen3 : (insert l2 (mkMerged a b)).length = l2.length + 1 := by
        have := hperm3.length_eq
        simpa using this
      have hne3 : insert l2 (mkMerged a b) ≠ [] := by
        intro hcon
        rw [hcon] at hlen3
        simp at hlen3
      obtain ⟨t, hbl, hgreedy⟩ := ih (insert l2 (mkMerged a b)) hne3 (by omega) hinv3
      refine ⟨t, hbl, ?_⟩
      have e1 : (↑l : Multiset HNode) = a ::ₘ ↑l1 := by
        rw [show (a ::ₘ (↑l1 : Multiset HNode)) = ↑(a :: l1) from rfl]
        exact Multiset.coe_eq_coe.mpr hperm1
      have e2 : (↑l1 : Multiset HNode) = b ::ₘ ↑l2 := by
        rw [show (b ::ₘ (↑l2 : Multiset HNode)) = ↑(b :: l2) from rfl]
        exact Multiset.coe_eq_coe.mpr hperm2
      have e3 : (↑(insert l2 (mkMerged a b)) : Multiset HNode) = mkMerged a b ::ₘ ↑l2 := by
        rw [show (mkMerged a b ::ₘ (↑l2 : Multiset HNode)) = ↑(mkMerged a b :: l2) from rfl]
        exact Multiset.coe_eq_coe.mpr hperm3
      rw [e1, e2]
      rw [e3] at hgreedy
      refine Greedy.step a b (↑l2) t ?_ ?_ hgreedy
      · intro x hx
        apply hmin1
        have : x ∈ (↑l : Multiset HNode) := by rw [e1, e2]; exact hx
        exact Multiset.mem_coe.mp this
      · intro x hx
        apply hmin2
        have : x ∈ (↑l1 : Multiset HNode) := by rw [e2]; exact hx
        exact Multiset.mem_coe.mp this
    · match l with
      | [x] =>
        refine ⟨x, buildLoop_single (f + 1) x, ?_⟩
        have : ((↑[x] : Multiset HNode)) = {x} := rfl
        rw [this]
        exact Greedy.single x
      | [] => exact absurd rfl hne
      | x :: y :: rest => simp at h1

/-! ### The initial heap holds one leaf per distinct character -/

theorem foldl_insert_spec (w : Char → Nat) :
    ∀ (cs : List Char) (acc : List HNode), heapInv acc →
    heapInv (cs.foldl (fun h c => insert h (mkLeaf c (w c))) acc) ∧
    List.Perm (cs.foldl (fun h c => insert h (mkLeaf c (w c))) acc)
      (cs.map (fun c => mkLeaf c (w c)) ++ acc) := by
  intro cs
  induction cs with
  | nil =>
    intro acc hacc
    exact ⟨hacc, by simp⟩
  | cons c cs' ihc =>
    intro acc hacc
    obtain ⟨hins, hinsp⟩ := insert_spec acc (mkLeaf c (w c)) hacc
    obtain ⟨h1, h2⟩ := ihc (insert acc (mkLeaf c (w c))) hins
    refine ⟨h1, ?_⟩
    have step1 : List.Perm (cs'.map (fun c => mkLeaf c (w c)) ++ insert acc (mkLeaf c (w c)))
        (cs'.map (fun c => mkLeaf c (w c)) ++ (mkLeaf c (w c) :: acc)) :=
      List.Perm.append_left _ hinsp
    have step2 : List.Perm (cs'.map (fun c => mkLeaf c (w c)) ++ (mkLeaf c (w c) :: acc))
        (mkLeaf c (w c) :: (cs'.map (fun c => mkLeaf c (w c)) ++ acc)) :=
      List.perm_middle
    exact (h2.trans (step1.trans step2))

theorem heapInv_nil : heapInv [] := by
  intro j hj hjlen
  simp at hjlen

theorem initialHeap_spec (text : List Char) :
    heapInv (initialHeap text) ∧
    List.Perm (initialHeap text)
      ((firstOccurs text).map (fun c => mkLeaf c (text.count c))) := by
  have := foldl_insert_spec (fun c => text.count c) (firstOccurs text) [] heapInv_nil
  refine ⟨this.1, ?_⟩
  have h2 := this.2
  simpa using h2

/-! ### Membership in firstOccurs -/

theorem mem_foldl_firstOccurs : ∀ (l acc : List Char) (x : Char),
    (x ∈ l.foldl (fun acc c => if c ∈ acc then acc else acc ++ [c]) acc ↔
      x ∈ acc ∨ x ∈ l) := by
  intro l
  induction l with
  | nil => intro acc x; simp
  | cons c t ih =>
    intro acc x
    by_cases hc : c ∈ acc
    · rw [List.foldl_cons, if_pos hc, ih]
      constructor
      · rintro (h | h)
        · exact Or.inl h
        · exact Or.inr (List.mem_cons_of_mem c h)
      · rintro (h | h)
        · exact Or.inl h
        · rcases List.mem_cons.mp h with rfl | h'
          · exact Or.inl hc
          · exact Or.inr h'
    · rw [List.foldl_cons, if_neg hc, ih]
      constructor
      · rintro (h | h)
        · rcases List.mem_append.mp h with h' | h'
          · exact Or.inl h'
          · rcases List.mem_singleton.mp h' with rfl
            exact Or.inr (List.mem_cons_self _ _)
        · exact Or.inr (List.mem_cons_of_mem c h)
      · rintro (h | h)
        · exact Or.inl (List.mem_append.mpr (Or.inl h))
        · rcases List.mem_cons.mp h with rfl | h'
          · exact Or.inl (List.mem_append.mpr (Or.inr (List.mem_singleton.mpr rfl)))
          · exact Or.inr h'

theorem mem_firstOccurs (text : List Char) (x : Char) :
    x ∈ firstOccurs text ↔ x ∈ text := by
  have := mem_foldl_firstOccurs text [] x
  simpa [firstOccurs] using this

theorem firstOccurs_ne_nil (text : List Char) (h : text ≠ []) :
    firstOccurs text ≠ [] := by
  match text with
  | [] => exact absurd rfl h
  | c :: t =>
    have : c ∈ firstOccurs (c :: t) := (mem_firstOccurs _ c).mpr (List.mem_cons_self c t)
    exact List.ne_nil_of_mem this

/-! ### build_tree realises the greedy construction -/

theorem buildTree_spec (text : List Char) (h : text ≠ []) :
    ∃ t, buildTree text = some t ∧ Greedy (initialLeaves text) t := by
  obtain ⟨hinv, hperm⟩ := initialHeap_spec text
  have hlen : (initialHeap text).length = (firstOccurs text).length := by
    have := hperm.length_eq
    simpa using this
  have hne : initialHeap text ≠ [] := by
    intro hcon
    have := firstOccurs_ne_nil text h
    rw [hcon] at hlen
    simp at hlen
    exact this (List.eq_nil_of_length_eq_zero hlen.symm)
  obtain ⟨t, hbl, hg⟩ := buildLoop_spec (initialHeap text).length (initialHeap text)
    hne (by omega) hinv
  refine ⟨t, ?_, ?_⟩
  · rw [buildTree, if_neg h]
    exact hbl
  · have : (↑(initialHeap text) : Multiset HNode) = initialLeaves text := by
      rw [initialLeaves]
      exact Multiset.coe_eq_coe.mpr hperm
    rwa [this] at hg

theorem buildTree_single (text : List Char) (c : Char) (hfo : firstOccurs text = [c])
    (hne : text ≠ []) : buildTree text = some (mkLeaf c (text.count c)) := by
  rw [buildTree, if_neg hne]
  have hih : initialHeap text = [mkLeaf c (text.count c)] := by
    rw [initialHeap, hfo]
    rfl
  rw [hih]
  exact buildLoop_single _ _

/-! ### Consequences of the greedy relation -/

theorem greedy_card_one : ∀ (s : Multiset HNode) (t : HNode), Greedy s t →
    Multiset.card s = 1 → s = {t} := by
  intro s t hg
  induction hg with
  | single t => intro _; rfl
  | step a b s t ha hb next ih =>
    intro hcard
    simp at hcard

theorem greedy_treeOK : ∀ (s : Multiset HNode) (t : HNode), Greedy s t →
    (∀ x ∈ s, treeOK x) → treeOK t := by
  intro s t hg
  induction hg with
  | single t => intro h; exact h t (Multiset.mem_singleton_self t)
  | step a b s t ha hb next ih =>
    intro h
    apply ih
    intro x hx
    rcases Multiset.mem_cons.mp hx with rfl | hx'
    · show treeOK (HNode.node2 none (a.freq + b.freq) a b)
      refine ⟨rfl, ?_, ?_⟩
      · exact h a (Multiset.mem_cons_self a _)
      · exact h b (Multiset.mem_cons_of_mem (Multiset.mem_cons_self b _))
    · exact h x (Multiset.mem_cons_of_mem (Multiset.mem_cons_of_mem hx'))

theorem greedy_leafMS : ∀ (s : Multiset HNode) (t : HNode), Greedy s t →
    leafMS t = (s.map leafMS).sum := by
  intro s t hg
  induction hg with
  | single t => simp
  | step a b s t ha hb next ih =>
    rw [ih]
    simp only [Multiset.map_cons, Multiset.sum_cons]
    have : leafMS (mkMerged a b) = leafMS a + leafMS b := rfl
    rw [this, add_assoc]

theorem greedy_char_none : ∀ (s : Multiset HNode) (t : HNode), Greedy s t →
    2 ≤ Multiset.card s → HNode.char t = none := by
  intro s t hg
  induction hg with
  | single t => intro hcard; simp at hcard
  | step a b s t ha hb next ih =>
    intro _
    rcases Multiset.empty_or_exists_mem s with rfl | ⟨x, hx⟩
    · have h1 := greedy_card_one _ _ next (by simp)
      have h1' : ({mkMerged a b} : Multiset HNode) = {t} := h1
      have h2 : mkMerged a b = t := Multiset.singleton_inj.mp h1'
      rw [← h2]
      rfl
    · apply ih
      have hc : 0 < Multiset.card s := Multiset.card_pos.mpr (by
        intro hcon
        rw [hcon] at hx
        simp at hx)
      rw [Multiset.card_cons]
      omega

/-! ### Properties of the generated code table -/

theorem genCodes_extend : ∀ (t : HNode) (pre : List Char), pre ≠ [] →
    ∀ p ∈ genCodes t pre, ∃ suf, p.2 = pre ++ suf := by
  intro t
  induction t with
  | node0 ch f =>
    intro pre hpre p hp
    cases ch with
    | some c0 =>
      simp only [genCodes, if_neg hpre, List.mem_singleton] at hp
      exact ⟨[], by rw [hp]; simp⟩
    | none => simp [genCodes] at hp
  | nodeL ch f lc ihl =>
    intro pre hpre p hp
    cases ch with
    | some c0 =>
      simp only [genCodes, if_neg hpre, List.mem_singleton] at hp
      exact ⟨[], by rw [hp]; simp⟩
    | none =>
      simp only [genCodes] at hp
      obtain ⟨suf, hsuf⟩ := ihl (pre ++ ['0']) (by simp) p hp
      exact ⟨'0' :: suf, by rw [hsuf]; simp⟩
  | nodeR ch f rc ihr =>
    intro pre hpre p hp
    cases ch with
    | some c0 =>
      simp only [genCodes, if_neg hpre, List.mem_singleton] at hp
      exact ⟨[], by rw [hp]; simp⟩
    | none =>
      simp only [genCodes] at hp
      obtain ⟨suf, hsuf⟩ := ihr (pre ++ ['1']) (by simp) p hp
      exact ⟨'1' :: suf, by rw [hsuf]; simp⟩
  | node2 ch f lc rc ihl ihr =>
    intro pre hpre p hp
    cases ch with
    | some c0 =>
      simp only [genCodes, if_neg hpre, List.mem_singleton] at hp
      exact ⟨[], by rw [hp]; simp⟩
    | none =>
      simp only [genCodes] at hp
      rcases List.mem_append.mp hp with hml | hmr
      · obtain ⟨suf, hsuf⟩ := ihl (pre ++ ['0']) (by simp) p hml
        exact ⟨'0' :: suf, by rw [hsuf]; simp⟩
      · obtain ⟨suf, hsuf⟩ := ihr (pre ++ ['1']) (by simp) p hmr
        exact ⟨'1' :: suf, by rw [hsuf]; simp⟩

theorem genCodes_ne_nil : ∀ (t : HNode) (pre : List Char), ∀ p ∈ genCodes t pre,
    p.2 ≠ [] := by
  intro t
  induction t with
  | node0 ch f =>
    intro pre p hp
    cases ch with
    | some c0 =>
      simp only [genCodes, List.mem_singleton] at hp
      rw [hp]
      by_cases hpre : pre = [] <;> simp [hpre]
    | none => simp [genCodes] at hp
  | nodeL ch f lc ihl =>
    intro pre p hp
    cases ch with
    | some c0 =>
      simp only [genCodes, List.mem_singleton] at hp
      rw [hp]
      by_cases hpre : pre = [] <;> simp [hpre]
    | none =>
      simp only [genCodes] at hp
      exact ihl (pre ++ ['0']) p hp
  | nodeR ch f rc ihr =>
    intro pre p hp
    cases ch with
    | some c0 =>
      simp only [genCodes, List.mem_singleton] at hp
      rw [hp]
      by_cases hpre : pre = [] <;> simp [hpre]
    | none =>
      simp only [genCodes] at hp
      exact ihr (pre ++ ['1']) p hp
  | node2 ch f lc rc ihl ihr =>
    intro pre p hp
    cases ch with
    | some c0 =>
      simp only [genCodes, List.mem_singleton] at hp
      rw [hp]
      by_cases hpre : pre = [] <;> simp [hpre]
    | none =>
      simp only [genCodes] at hp
      rcases List.mem_append.mp hp with hml | hmr
      · exact ihl (pre ++ ['0']) p hml
      · exact ihr (pre ++ ['1']) p hmr

theorem genCodes_bits : ∀ (t : HNode) (pre : List Char),
    (∀ b ∈ pre, b = '0' ∨ b = '1') →
    ∀ p ∈ genCodes t pre, ∀ b ∈ p.2, b = '0' ∨ b = '1' := by
  intro t
  induction t with
  | node0 ch f =>
    intro pre hpre p hp b hb
    cases ch with
    | some c0 =>
      simp only [genCodes, List.mem_singleton] at hp
      rw [hp] at hb
      by_cases hpe : pre = []
      · simp [hpe] at hb
        exact Or.inl hb
      · simp only [if_neg hpe] at hb
        exact hpre b hb
    | none => simp [genCodes] at hp
  | nodeL ch f lc ihl =>
    intro pre hpre p hp b hb
    cases ch with
    | some c0 =>
      simp only [genCodes, List.mem_singleton] at hp
      rw [hp] at hb
      by_cases hpe : pre = []
      · simp [hpe] at hb
        exact Or.inl hb
      · simp only [if_neg hpe] at hb
        exact hpre b hb
    | none =>
      simp only [genCodes] at hp
      refine ihl (pre ++ ['0']) ?_ p hp b hb
      intro x hx
      rcases List.mem_append.mp hx with h | h
      · exact hpre x h
      · exact Or.inl (List.mem_singleton.mp h)
  | nodeR ch f rc ihr =>
    intro pre hpre p hp b hb
    cases ch with
    | some c0 =>
      simp only [genCodes, List.mem_singleton] at hp
      rw [hp] at hb
      by_cases hpe : pre = []
      · simp [hpe] at hb
        exact Or.inl hb
      · simp only [if_neg hpe] at hb
        exact hpre b hb
    | none =>
      simp only [genCodes] at hp
      refine ihr (pre ++ ['1']) ?_ p hp b hb
      intro x hx
      rcases List.mem_append.mp hx with h | h
      · exact hpre x h
      · exact Or.inr (List.mem_singleton.mp h)
  | node2 ch f lc rc ihl ihr =>
    intro pre hpre p hp b hb
    cases ch with
    | some c0 =>
      simp only [genCodes, List.mem_singleton] at hp
      rw [hp] at hb
      by_cases hpe : pre = []
      · simp [hpe] at hb
        exact Or.inl hb
      · simp only [if_neg hpe] at hb
        exact hpre b hb
    | none =>
      simp only [genCodes] at hp
      rcases List.mem_append.mp hp with hml | hmr
      · refine ihl (pre ++ ['0']) ?_ p hml b hb
        intro x hx
        rcases List.mem_append.mp hx with h | h
        · exact hpre x h
        · exact Or.inl (List.mem_singleton.mp h)
      · refine ihr (pre ++ ['1']) ?_ p hmr b hb
        intro x hx
        rcases List.mem_append.mp hx with h | h
        · exact hpre x h
        · exact Or.inr (List.mem_singleton.mp h)

theorem not_IsPre_of_branch (pre s1 s2 : List Char) (c1 c2 : Char) (h : c1 ≠ c2) :
    ¬ IsPre (pre ++ c1 :: s1) (pre ++ c2 :: s2) := by
  rintro ⟨u, hu⟩
  rw [List.append_assoc] at hu
  have h2 := List.append_cancel_left hu
  rw [List.cons_append] at h2
  injection h2 with h3 _
  exact h h3

theorem genCodes_pairwise : ∀ (t : HNode) (pre : List Char),
    List.Pairwise (fun p q : Char × List Char =>
      ¬ IsPre p.2 q.2 ∧ ¬ IsPre q.2 p.2) (genCodes t pre) := by
  intro t
  induction t with
  | node0 ch f =>
    intro pre
    cases ch with
    | some c0 => exact List.pairwise_singleton _ _
    | none => exact List.Pairwise.nil
  | nodeL ch f lc ihl =>
    intro pre
    cases ch with
    | some c0 => exact List.pairwise_singleton _ _
    | none => exact ihl (pre ++ ['0'])
  | nodeR ch f rc ihr =>
    intro pre
    cases ch with
    | some c0 => exact List.pairwise_singleton _ _
    | none => exact ihr (pre ++ ['1'])
  | node2 ch f lc rc ihl ihr =>
    intro pre
    cases ch with
    | some c0 => exact List.pairwise_singleton _ _
    | none =>
      show List.Pairwise _ (genCodes lc (pre ++ ['0']) ++ genCodes rc (pre ++ ['1']))
      rw [List.pairwise_append]
      refine ⟨ihl (pre ++ ['0']), ihr (pre ++ ['1']), ?_⟩
      intro p hp q hq
      obtain ⟨s1, hs1⟩ := genCodes_extend lc (pre ++ ['0']) (by simp) p hp
      obtain ⟨s2, hs2⟩ := genCodes_extend rc (pre ++ ['1']) (by simp) q hq
      rw [List.append_assoc] at hs1 hs2
      simp only [List.singleton_append] at hs1 hs2
      rw [hs1, hs2]
      exact ⟨not_IsPre_of_branch pre s1 s2 '0' '1' (by decide),
        not_IsPre_of_branch pre s2 s1 '1' '0' (by decide)⟩

theorem leafMS_entry : ∀ (t : HNode) (c : Char), c ∈ leafMS t →
    ∀ pre, ∃ s, (c, s) ∈ genCodes t pre := by
  intro t
  induction t with
  | node0 ch f =>
    intro c hc pre
    cases ch with
    | some c0 =>
      have : c = c0 := by
        have h1 : c ∈ ({c0} : Multiset Char) := hc
        exact Multiset.mem_singleton.mp h1
      subst this
      exact ⟨if pre = [] then ['0'] else pre, by simp [genCodes]⟩
    | none =>
      have : c ∈ (0 : Multiset Char) := hc
      simp at this
  | nodeL ch f lc ihl =>
    intro c hc pre
    cases ch with
    | some c0 =>
      have : c ∈ (0 : Multiset Char) := hc
      simp at this
    | none =>
      have : c ∈ (0 : Multiset Char) := hc
      simp at this
  | nodeR ch f rc ihr =>
    intro c hc pre
    cases ch with
    | some c0 =>
      have : c ∈ (0 : Multiset Char) := hc
      simp at this
    | none =>
      have : c ∈ (0 : Multiset Char) := hc
      simp at this
  | node2 ch f lc rc ihl ihr =>
    intro c hc pre
    cases ch with
    | some c0 =>
      have : c ∈ (0 : Multiset Char) := hc
      simp at this
    | none =>
      have hc' : c ∈ leafMS lc + leafMS rc := hc
      rcases Multiset.mem_add.mp hc' with h | h
      · obtain ⟨s, hs⟩ := ihl c h (pre ++ ['0'])
        refine ⟨s, ?_⟩
        simp only [genCodes]
        exact List.mem_append.mpr (Or.inl hs)
      · obtain ⟨s, hs⟩ := ihr c h (pre ++ ['1'])
        refine ⟨s, ?_⟩
        simp only [genCodes]
        exact List.mem_append.mpr (Or.inr hs)

/-! ### Dictionary lookup and traversal of the text -/

theorem dictGet_some (m : List (Char × List Char)) (c : Char)
    (h : ∃ s, (c, s) ∈ m) : ∃ s, dictGet m c = some s ∧ (c, s) ∈ m := by
  obtain ⟨s0, hs0⟩ := h
  have hex : ∃ p ∈ m.reverse, ((p.1 == c) = true) :=
    ⟨(c, s0), List.mem_reverse.mpr hs0, by simp⟩
  have hsome := List.find?_isSome.mpr hex
  obtain ⟨p, hp⟩ := Option.isSome_iff_exists.mp hsome
  have hmem : p ∈ m := List.mem_reverse.mp (List.mem_of_find?_eq_some hp)
  have hpc : p.1 = c := by simpa using List.find?_some hp
  refine ⟨p.2, ?_, ?_⟩
  · rw [dictGet, hp]
    rfl
  · rw [← hpc]
    exact hmem

theorem dictGet_mem (m : List (Char × List Char)) (c : Char) (s : List Char)
    (h : dictGet m c = some s) : (c, s) ∈ m := by
  rw [dictGet] at h
  match hf : m.reverse.find? (fun p => p.1 == c) with
  | none =>
    rw [hf] at h
    exact absurd h (by simp)
  | some p =>
    rw [hf] at h
    have hps : p.2 = s := by simpa using h
    have hmem : p ∈ m := List.mem_reverse.mp (List.mem_of_find?_eq_some hf)
    have hpc : p.1 = c := by simpa using List.find?_some hf
    rw [← hpc, ← hps]
    exact hmem

theorem mapM_option_spec : ∀ (l : List Char) (f : Char → Option (List Char)),
    (∀ c ∈ l, ∃ s, f c = some s) → ∃ cs, l.mapM f = some cs ∧
      List.Forall₂ (fun c s => f c = some s) l cs := by
  intro l
  induction l with
  | nil =>
    intro f _
    exact ⟨[], rfl, List.Forall₂.nil⟩
  | cons a l' ih =>
    intro f h
    obtain ⟨b, hb⟩ := h a (List.mem_cons_self a l')
    obtain ⟨cs, hcs, hrel⟩ := ih f (fun c hc => h c (List.mem_cons_of_mem a hc))
    refine ⟨b :: cs, ?_, List.Forall₂.cons hb hrel⟩
    rw [List.mapM_cons, hb, hcs]
    rfl

/-! ### Decoding a code word walks back to its leaf -/

theorem decode_inner (rt : HNode) : ∀ (sub : HNode), treeOK sub →
    HNode.char sub = none → ∀ (pre : List Char) (c : Char) (s : List Char),
    (c, s) ∈ genCodes sub pre →
    ∃ p, s = pre ++ p ∧ ∀ rest, decodeLoop rt sub (p ++ rest) =
      (decodeLoop rt rt rest).map (fun d => c :: d) := by
  intro sub
  induction sub with
  | node0 ch f =>
    intro hok hch pre c s hmem
    cases ch with
    | some c0 => simp [HNode.char] at hch
    | none => simp [genCodes] at hmem
  | nodeL ch f lc ihl =>
    intro hok hch pre c s hmem
    cases ch with
    | some c0 => simp [treeOK] at hok
    | none => simp [treeOK] at hok
  | nodeR ch f rc ihr =>
    intro hok hch pre c s hmem
    cases ch with
    | some c0 => simp [treeOK] at hok
    | none => simp [treeOK] at hok
  | node2 ch f lc rc ihl ihr =>
    intro hok hch pre c s hmem
    cases ch with
    | some c0 => simp [treeOK] at hok
    | none =>
      obtain ⟨hw, hokl, hokr⟩ := hok
      simp only [genCodes] at hmem
      rcases List.mem_append.mp hmem with hml | hmr
      · match lc, hokl with
        | HNode.node0 (some c0) f0, _ =>
          simp only [genCodes, List.mem_singleton,
            if_neg (by simp : ¬ pre ++ ['0'] = [])] at hml
          have hc : c = c0 := congrArg Prod.fst hml
          have hs : s = pre ++ ['0'] := congrArg Prod.snd hml
          subst hc
          refine ⟨['0'], by rw [hs], ?_⟩
          intro rest
          rfl
        | HNode.node2 none f0 a b, hokl =>
          obtain ⟨p', hs, hdec⟩ := ihl hokl rfl (pre ++ ['0']) c s hml
          refine ⟨'0' :: p', by rw [hs]; simp, ?_⟩
          intro rest
          have hstep : decodeLoop rt (HNode.node2 none f (HNode.node2 none f0 a b) rc)
              (('0' :: p') ++ rest) =
              decodeLoop rt (HNode.node2 none f0 a b) (p' ++ rest) := rfl
          rw [hstep, hdec rest]
      · match rc, hokr with
        | HNode.node0 (some c0) f0, _ =>
          simp only [genCodes, List.mem_singleton,
            if_neg (by simp : ¬ pre ++ ['1'] = [])] at hmr
          have hc : c = c0 := congrArg Prod.fst hmr
          have hs : s = pre ++ ['1'] := congrArg Prod.snd hmr
          subst hc
          refine ⟨['1'], by rw [hs], ?_⟩
          intro rest
          rfl
        | HNode.node2 none f0 a b, hokr =>
          obtain ⟨p', hs, hdec⟩ := ihr hokr rfl (pre ++ ['1']) c s hmr
          refine ⟨'1' :: p', by rw [hs]; simp, ?_⟩
          intro rest
          have hstep : decodeLoop rt (HNode.node2 none f lc (HNode.node2 none f0 a b))
              (('1' :: p') ++ rest) =
              decodeLoop rt (HNode.node2 none f0 a b) (p' ++ rest) := rfl
          rw [hstep, hdec rest]

theorem decode_flatten (rt : HNode) (hok : treeOK rt) (hch : HNode.char rt = none) :
    ∀ (text : List Char) (cs : List (List Char)),
    List.Forall₂ (fun c s => (c, s) ∈ genCodes rt []) text cs →
    decodeLoop rt rt cs.flatten = some text := by
  intro text cs hrel
  induction hrel with
  | nil => rfl
  | cons hcs hrest ih =>
    rename_i c s text' cs'
    obtain ⟨p, hp, hdec⟩ := decode_inner rt rt hok hch [] c s hcs
    simp only [List.nil_append] at hp
    rw [List.flatten_cons, hp, hdec cs'.flatten, ih]
    rfl

/-! ### The built tree is well formed and carries the distinct characters -/

theorem sum_leafMS_leaves : ∀ (cs : List Char) (w : Char → Nat),
    (Multiset.map leafMS ↑(cs.map (fun c => mkLeaf c (w c)))).sum = (↑cs : Multiset Char) := by
  intro cs
  induction cs with
  | nil => intro w; simp
  | cons c cs' ih =>
    intro w
    have h1 : ((↑((c :: cs').map (fun c => mkLeaf c (w c)))) : Multiset HNode) =
        mkLeaf c (w c) ::ₘ ↑(cs'.map (fun c => mkLeaf c (w c))) := rfl
    rw [h1, Multiset.map_cons, Multiset.sum_cons]
    have h2 : leafMS (mkLeaf c (w c)) = {c} := rfl
    rw [h2, ih w]
    rw [show ((↑(c :: cs')) : Multiset Char) = c ::ₘ ↑cs' from rfl]
    exact Multiset.singleton_add c ↑cs'

theorem buildTree_ok (text : List Char) (h : text ≠ []) :
    ∃ t, buildTree text = some t ∧ Greedy (initialLeaves text) t ∧ treeOK t ∧
      leafMS t = (↑(firstOccurs text) : Multiset Char) ∧
      (2 ≤ (firstOccurs text).length → HNode.char t = none) := by
  obtain ⟨t, hbt, hg⟩ := buildTree_spec text h
  refine ⟨t, hbt, hg, ?_, ?_, ?_⟩
  · apply greedy_treeOK _ _ hg
    intro x hx
    rw [initialLeaves] at hx
    have hx' : x ∈ (firstOccurs text).map (fun c => mkLeaf c (text.count c)) :=
      Multiset.mem_coe.mp hx
    obtain ⟨c, _, rfl⟩ := List.mem_map.mp hx'
    trivial
  · rw [greedy_leafMS _ _ hg, initialLeaves]
    exact sum_leafMS_leaves (firstOccurs text) (fun c => text.count c)
  · intro h2
    apply greedy_char_none _ _ hg
    rw [initialLeaves, Multiset.coe_card, List.length_map]
    omega

/-! ### encode succeeds and concatenates the code of every character -/

theorem encode_spec (text : List Char) (h2 : 2 ≤ (firstOccurs text).length) :
    ∃ t cs, buildTree text = some t ∧ treeOK t ∧ HNode.char t = none ∧
      encode text = some (cs.flatten, genCodes t []) ∧
      text.mapM (fun c => dictGet (genCodes t []) c) = some cs ∧
      List.Forall₂ (fun c s => dictGet (genCodes t []) c = some s) text cs := by
  have hne : text ≠ [] := by
    intro hcon
    rw [hcon] at h2
    simp [firstOccurs] at h2
  obtain ⟨t, hbt, hg, hok, hleaf, hchar⟩ := buildTree_ok text hne
  have hch := hchar h2
  have htot : ∀ c ∈ text, ∃ s, dictGet (genCodes t []) c = some s := by
    intro c hc
    have hcl : c ∈ leafMS t := by
      rw [hleaf]
      exact Multiset.mem_coe.mpr ((mem_firstOccurs text c).mpr hc)
    obtain ⟨s, hs⟩ := leafMS_entry t c hcl []
    obtain ⟨s', hs', _⟩ := dictGet_some (genCodes t []) c ⟨s, hs⟩
    exact ⟨s', hs'⟩
  obtain ⟨cs, hcs, hrel⟩ := mapM_option_spec text (fun c => dictGet (genCodes t []) c) htot
  refine ⟨t, cs, hbt, hok, hch, ?_, hcs, hrel⟩
  rw [encode, if_neg hne, hbt]
  show (text.mapM (fun c => dictGet (genCodes t []) c)).map
      (fun bs => (bs.flatten, genCodes t [])) = some (cs.flatten, genCodes t [])
  rw [hcs]
  rfl

theorem encode_decode (text : List Char) (h2 : 2 ≤ (firstOccurs text).length) :
    ∃ (t : HNode) (cs : List (List Char)), buildTree text = some t ∧
      encode text = some (cs.flatten, genCodes t []) ∧
      decode cs.flatten (buildTree text) = some text := by
  obtain ⟨t, cs, hbt, hok, hch, henc, hcs, hrel⟩ := encode_spec text h2
  have hne : text ≠ [] := by
    intro hcon
    rw [hcon] at h2
    simp [firstOccurs] at h2
  have hrel' : List.Forall₂ (fun c s => (c, s) ∈ genCodes t []) text cs :=
    hrel.imp (fun c s hx => dictGet_mem _ c s hx)
  refine ⟨t, cs, hbt, henc, ?_⟩
  have hene : cs.flatten ≠ [] := by
    match text, cs, hrel' with
    | c :: text', s :: cs', rel =>
      have hmem := (List.forall₂_cons.mp rel).1
      have hsne : s ≠ [] := genCodes_ne_nil t [] (c, s) hmem
      match s, hsne with
      | b :: s', _ => simp
  rw [hbt]
  have hdd : decode cs.flatten (some t) =
      if cs.flatten = [] then some [] else decodeLoop t t cs.flatten := rfl
  rw [hdd, if_neg hene]
  exact decode_flatten t hok hch text cs hrel'

/-! ### Bit packing and unpacking are mutually inverse -/

theorem bitsToNat_snoc (l : List Char) (c : Char) :
    bitsToNat (l ++ [c]) = 2 * bitsToNat l + (if c = '1' then 1 else 0) := by
  rw [bitsToNat, List.foldl_append]
  rfl

theorem natToBitsW_bitsToNat (l : List Char) (h : ∀ b ∈ l, b = '0' ∨ b = '1') :
    natToBitsW l.length (bitsToNat l) = l := by
  induction l using List.reverseRecOn with
  | nil => rfl
  | append_singleton l c ih =>
    have hc : c = '0' ∨ c = '1' :=
      h c (List.mem_append.mpr (Or.inr (List.mem_singleton.mpr rfl)))
    have hl : ∀ b ∈ l, b = '0' ∨ b = '1' := fun b hb =>
      h b (List.mem_append.mpr (Or.inl hb))
    have hlen : (l ++ [c]).length = l.length + 1 := by simp
    rw [hlen, bitsToNat_snoc]
    have heq : natToBitsW (l.length + 1) (2 * bitsToNat l + (if c = '1' then 1 else 0)) =
        natToBitsW l.length ((2 * bitsToNat l + (if c = '1' then 1 else 0)) / 2) ++
        [if (2 * bitsToNat l + (if c = '1' then 1 else 0)) % 2 = 1 then '1' else '0'] := rfl
    rw [heq]
    rcases hc with rfl | rfl
    · have hb : (if ('0' : Char) = '1' then (1 : Nat) else 0) = 0 := by decide
      rw [hb]
      have hdiv : (2 * bitsToNat l + 0) / 2 = bitsToNat l := by omega
      have hmod : (2 * bitsToNat l + 0) % 2 = 0 := by omega
      rw [hdiv, hmod, ih hl]
      have hch : (if (0 : Nat) = 1 then '1' else '0') = '0' := by decide
      rw [hch]
    · have hb : (if ('1' : Char) = '1' then (1 : Nat) else 0) = 1 := by decide
      rw [hb]
      have hdiv : (2 * bitsToNat l + 1) / 2 = bitsToNat l := by omega
      have hmod : (2 * bitsToNat l + 1) % 2 = 1 := by omega
      rw [hdiv, hmod, ih hl]
      have hch : (if (1 : Nat) = 1 then '1' else '0') = '1' := by decide
      rw [hch]

theorem unpack_packBytes : ∀ (n : Nat) (l : List Char), l.length ≤ n →
    (∀ b ∈ l, b = '0' ∨ b = '1') → l.length % 8 = 0 →
    ((packBytes l).map natToBits8).flatten = l := by
  intro n
  induction n with
  | zero =>
    intro l hl _ _
    have : l = [] := List.eq_nil_of_length_eq_zero (by omega)
    subst this
    rfl
  | succ n ih =>
    intro l hl hbits hmod
    rcases l with _ | ⟨a, _ | ⟨b, _ | ⟨c, _ | ⟨d, _ | ⟨e, _ | ⟨f, _ | ⟨g, _ | ⟨h, rest⟩⟩⟩⟩⟩⟩⟩⟩
    · rfl
    · simp at hmod
    · simp at hmod
    · simp at hmod
    · simp at hmod
    · simp at hmod
    · simp at hmod
    · simp at hmod
    · have hpk : packBytes (a :: b :: c :: d :: e :: f :: g :: h :: rest) =
          bitsToNat [a, b, c, d, e, f, g, h] :: packBytes rest := rfl
      rw [hpk, List.map_cons, List.flatten_cons]
      have h8 : ∀ x ∈ [a, b, c, d, e, f, g, h], x = '0' ∨ x = '1' := by
        intro x hx
        apply hbits
        simp only [List.mem_cons, List.not_mem_nil, or_false] at hx
        rcases hx with rfl | rfl | rfl | rfl | rfl | rfl | rfl | rfl <;> simp
      have hhead : natToBits8 (bitsToNat [a, b, c, d, e, f, g, h]) =
          [a, b, c, d, e, f, g, h] := by
        have := natToBitsW_bitsToNat [a, b, c, d, e, f, g, h] h8
        exact this
      have hlenl : (a :: b :: c :: d :: e :: f :: g :: h :: rest).length =
          rest.length + 8 := by simp
      have htail : ((packBytes rest).map natToBits8).flatten = rest := by
        apply ih rest (by rw [hlenl] at hl; omega)
          (fun x hx => hbits x (by simp [hx]))
        rw [hlenl] at hmod
        omega
      rw [hhead, htail]
      rfl

theorem unpackBits_eq (data : List Nat) (p : Nat) :
    unpackBits data p = (if p ≠ 0 then ((data.map natToBits8).flatten).take
      (((data.map natToBits8).flatten).length - p)
    else (data.map natToBits8).flatten) := rfl

theorem unpackBits_packBytes (B : List Char) (h : ∀ b ∈ B, b = '0' ∨ b = '1') :
    unpackBits (packBytes (B ++ List.replicate (bitPad B) '0')) (bitPad B) = B := by
  have hlt : B.length % 8 < 8 := Nat.mod_lt _ (by omega)
  have hpad1 : 1 ≤ bitPad B := by rw [bitPad]; omega
  have hmod : (B ++ List.replicate (bitPad B) '0').length % 8 = 0 := by
    rw [List.length_append, List.length_replicate, bitPad]
    omega
  have hbits : ∀ b ∈ B ++ List.replicate (bitPad B) '0', b = '0' ∨ b = '1' := by
    intro b hb
    rcases List.mem_append.mp hb with hb' | hb'
    · exact h b hb'
    · exact Or.inl (List.eq_of_mem_replicate hb')
  have h1 : ((packBytes (B ++ List.replicate (bitPad B) '0')).map natToBits8).flatten =
      B ++ List.replicate (bitPad B) '0' :=
    unpack_packBytes (B ++ List.replicate (bitPad B) '0').length _ (le_refl _) hbits hmod
  rw [unpackBits_eq, if_pos (by omega), h1]
  have hlen : (B ++ List.replicate (bitPad B) '0').length - bitPad B = B.length := by
    rw [List.length_append, List.length_replicate]
    omega
  rw [hlen]
  exact List.take_left B _

/-! ### The shape of the compressed container -/

theorem compress_eq (text : List Char) (e : List Char) (codes : List (Char × List Char))
    (h : encode text = some (e, codes)) :
    compress text = some
      { tree := buildTree text
        data := packBytes (e ++ List.replicate (bitPad e) '0')
        padding := bitPad e
        original_length := text.length } := by
  rw [compress, h]
  rfl

theorem forall₂_mem_right {R : Char → List Char → Prop} :
    ∀ (l1 : List Char) (l2 : List (List Char)), List.Forall₂ R l1 l2 →
    ∀ s ∈ l2, ∃ c ∈ l1, R c s := by
  intro l1 l2 hrel
  induction hrel with
  | nil => intro s hs; simp at hs
  | cons hab htail ih =>
    rename_i a b t1 t2
    intro s hs
    rcases List.mem_cons.mp hs with rfl | hs'
    · exact ⟨a, List.mem_cons_self a t1, hab⟩
    · obtain ⟨c, hc, hr⟩ := ih s hs'
      exact ⟨c, List.mem_cons_of_mem a hc, hr⟩

/-! ### Full round trip for texts with at least two distinct characters -/

theorem roundTrip_multi (text : List Char) (h2 : 2 ≤ (firstOccurs text).length) :
    roundTrip text = some text := by
  obtain ⟨t, cs, hbt, hok, hch, henc, hcs, hrel⟩ := encode_spec text h2
  have hrel' : List.Forall₂ (fun c s => (c, s) ∈ genCodes t []) text cs :=
    hrel.imp (fun c s hx => dictGet_mem _ c s hx)
  have hbits : ∀ b ∈ cs.flatten, b = '0' ∨ b = '1' := by
    intro b hb
    obtain ⟨s, hscs, hbs⟩ := List.mem_flatten.mp hb
    obtain ⟨c, _, hmem⟩ := forall₂_mem_right text cs hrel' s hscs
    exact genCodes_bits t [] (by simp) (c, s) hmem b hbs
  have hene : cs.flatten ≠ [] := by
    have hne : text ≠ [] := by
      intro hcon
      rw [hcon] at h2
      simp [firstOccurs] at h2
    match text, cs, hrel' with
    | c :: text', s :: cs', rel =>
      have hmem := (List.forall₂_cons.mp rel).1
      have hsne : s ≠ [] := genCodes_ne_nil t [] (c, s) hmem
      match s, hsne with
      | b :: s', _ => simp
  have hcomp := compress_eq text cs.flatten (genCodes t []) henc
  rw [roundTrip, hcomp]
  show decompress
      { tree := buildTree text
        data := packBytes (cs.flatten ++ List.replicate (bitPad cs.flatten) '0')
        padding := bitPad cs.flatten
        original_length := text.length } = some text
  show decode (unpackBits (packBytes (cs.flatten ++
      List.replicate (bitPad cs.flatten) '0')) (bitPad cs.flatten)) (buildTree text) =
    some text
  rw [unpackBits_packBytes cs.flatten hbits, hbt]
  have hdd : decode cs.flatten (some t) =
      if cs.flatten = [] then some [] else decodeLoop t t cs.flatten := rfl
  rw [hdd, if_neg hene]
  exact decode_flatten t hok hch text cs hrel'

/-! ## The claim theorems -/

/-- Claim C1 (code bug): the round trip is claimed to hold for every finite
string, including single-character strings; on the single-character string
z the code raises an AttributeError (modelled as none): decode moves into
the missing left child of the single-leaf tree before checking its
character, so decompress(compress(z)) fails rather than returning z. -/
theorem claim1_roundtrip_single_char_fails :
    roundTrip ['z'] = none ∧ roundTrip ['z'] ≠ some ['z'] := by
  constructor
  · rfl
  · intro hcon
    rw [show roundTrip ['z'] = none from rfl] at hcon
    exact Option.noConfusion hcon

/-- Claim C2 (code bug): on the input zzzz the stored tree is indeed the
bare leaf for z and the code table assigns z the one-bit code 0, exactly
as claimed, but decompress applied to the produced artifact raises an
AttributeError (modelled as none) instead of returning zzzz. -/
theorem claim2_single_symbol_artifact :
    encode ['z', 'z', 'z', 'z'] = some (['0', '0', '0', '0'], [('z', ['0'])]) ∧
    buildTree ['z', 'z', 'z', 'z'] = some (HNode.node0 (some 'z') 4) ∧
    compress ['z', 'z', 'z', 'z'] = some
      { tree := some (HNode.node0 (some 'z') 4)
        data := [0]
        padding := 4
        original_length := 4 } ∧
    roundTrip ['z', 'z', 'z', 'z'] = none :=
  ⟨rfl, rfl, rfl, rfl⟩

/-- Claim C3 (counterexample): for the input aaaabbbb the encoded bit
string has length 8, a multiple of 8, yet the recorded padding is 8 and
not (8 - 8 mod 8) mod 8 = 0 as the claim states. -/
theorem claim3_counterexample :
    (encode ['a', 'a', 'a', 'a', 'b', 'b', 'b', 'b']).map (fun ec => ec.1.length) =
      some 8 ∧
    (compress ['a', 'a', 'a', 'a', 'b', 'b', 'b', 'b']).map CompressedData.padding =
      some 8 ∧
    ((8 : Nat) - 8 % 8) % 8 = 0 ∧ (8 : Nat) ≠ 0 :=
  ⟨rfl, rfl, rfl, by decide⟩

/-- Claim C3 (amended): for an encoded bit string of length L, compress
records padding = 8 - L mod 8, which always lies in the range 1 to 8 and
still satisfies (L + padding) mod 8 = 0; when L is already a multiple of
8 the recorded padding is 8 (a full extra byte), and for a bit string of
length 5 the recorded padding is 3. -/
theorem claim3_amended_padding (text e : List Char) (codes : List (Char × List Char))
    (a : CompressedData) (h1 : encode text = some (e, codes))
    (h2 : compress text = some a) :
    a.padding = 8 - e.length % 8 ∧ 1 ≤ a.padding ∧ a.padding ≤ 8 ∧
      (e.length + a.padding) % 8 = 0 ∧ (e.length % 8 = 0 → a.padding = 8) ∧
      (e.length = 5 → a.padding = 3) := by
  have hc := compress_eq text e codes h1
  rw [h2] at hc
  have ha := Option.some.inj hc
  have hpad : a.padding = bitPad e := by rw [ha]
  rw [hpad, bitPad]
  have hlt : e.length % 8 < 8 := Nat.mod_lt _ (by omega)
  refine ⟨rfl, by omega, by omega, by omega, fun h0 => by omega, fun h5 => by omega⟩

/-- Witness for claim C3 (amended) at the concrete input aaaabbbb, whose
encoded bit string 00001111 has length 8 and whose recorded padding is 8. -/
theorem claim3_amended_padding_witness :
    encode ['a', 'a', 'a', 'a', 'b', 'b', 'b', 'b'] =
      some (['0', '0', '0', '0', '1', '1', '1', '1'], [('a', ['0']), ('b', ['1'])]) ∧
    compress ['a', 'a', 'a', 'a', 'b', 'b', 'b', 'b'] = some
      { tree := some (HNode.node2 none 8 (HNode.node0 (some 'a') 4)
          (HNode.node0 (some 'b') 4))
        data := [15, 0]
        padding := 8
        original_length := 8 } ∧
    ((8 : Nat) = 8 - (['0', '0', '0', '0', '1', '1', '1', '1'] : List Char).length % 8 ∧
      1 ≤ (8 : Nat) ∧ (8 : Nat) ≤ 8 ∧
      ((['0', '0', '0', '0', '1', '1', '1', '1'] : List Char).length + 8) % 8 = 0 ∧
      ((['0', '0', '0', '0', '1', '1', '1', '1'] : List Char).length % 8 = 0 →
        (8 : Nat) = 8) ∧
      ((['0', '0', '0', '0', '1', '1', '1', '1'] : List Char).length = 5 →
        (8 : Nat) = 3)) :=
  ⟨rfl, rfl, claim3_amended_padding ['a', 'a', 'a', 'a', 'b', 'b', 'b', 'b']
    ['0', '0', '0', '0', '1', '1', '1', '1'] [('a', ['0']), ('b', ['1'])] _ rfl rfl⟩

/-- Claim C4 (counterexample): the artifact produced by compressing
aaaaabbbbb has data bytes 7 and 192; truncating the data to its first
byte and decompressing silently returns the wrong string aa instead of
failing with an error. -/
theorem claim4_counterexample :
    (compress ['a', 'a', 'a', 'a', 'a', 'b', 'b', 'b', 'b', 'b']).map
      (fun a => decompress { a with data := a.data.take 1 }) =
      some (some ['a', 'a']) ∧
    (['a', 'a'] : List Char) ≠ ['a', 'a', 'a', 'a', 'a', 'b', 'b', 'b', 'b', 'b'] :=
  ⟨rfl, by decide⟩

/-- Claim C4 (amended): decompress does not detect truncation of the
packed bytes: on an artifact whose data has been cut to a whole-byte
border it silently returns a partial decode (here aa); an error (a raised
exception, modelled as none) occurs only when the bit walk steps into a
missing child of the stored tree, as on a bare-leaf tree with nonzero
data bits. -/
theorem claim4_amended_truncation_silent :
    decompress
      { tree := some (HNode.node2 none 10 (HNode.node0 (some 'a') 5)
          (HNode.node0 (some 'b') 5))
        data := [7]
        padding := 6
        original_length := 10 } = some ['a', 'a'] ∧
    decompress
      { tree := some (HNode.node0 (some 'z') 4)
        data := [0]
        padding := 4
        original_length := 4 } = none :=
  ⟨rfl, rfl⟩

/-- Claim C5: compressing the empty string stores no tree (the encoder
root stays None, and build_tree returns None without running), records
original length 0 and an empty encoded bit string, and decompressing the
resulting artifact returns the empty string. -/
theorem claim5_empty_input :
    encode [] = some ([], []) ∧
    buildTree [] = none ∧
    compress [] = some
      { tree := none
        data := [0]
        padding := 8
        original_length := 0 } ∧
    roundTrip [] = some [] :=
  ⟨rfl, rfl, rfl, rfl⟩

/-- Claim C6: on every nonempty text build_tree terminates with one root
reached by the greedy construction (the Greedy relation: repeatedly
extract two minimum-weight nodes, merge them into an internal node whose
weight is the sum with the first extracted as left child, and reinsert);
the resulting tree is well formed, so every internal node has exactly two
children and carries the sum of its children's weights, and when the text
has exactly one distinct character the tree is the bare leaf for it. -/
theorem claim6_build_tree_greedy (text : List Char) (h : text ≠ []) :
    ∃ t, buildTree text = some t ∧ Greedy (initialLeaves text) t ∧ treeOK t ∧
      (∀ c, firstOccurs text = [c] → t = mkLeaf c (text.count c)) := by
  obtain ⟨t, hbt, hg, hok, _, _⟩ := buildTree_ok text h
  refine ⟨t, hbt, hg, hok, ?_⟩
  intro c hc
  have hs := buildTree_single text c hc h
  rw [hbt] at hs
  exact Option.some.inj hs

/-- Witness for claim C6 at the concrete input ab. -/
theorem claim6_build_tree_greedy_witness :
    (['a', 'b'] : List Char) ≠ [] ∧
    (∃ t, buildTree ['a', 'b'] = some t ∧ Greedy (initialLeaves ['a', 'b']) t ∧
      treeOK t ∧
      (∀ c, firstOccurs ['a', 'b'] = [c] → t = mkLeaf c (List.count c ['a', 'b']))) :=
  ⟨by decide, claim6_build_tree_greedy ['a', 'b'] (by decide)⟩

/-- Claim C7: for every text with at least two distinct characters,
encode succeeds and its code table is prefix-free: the codes of any two
entries are not prefixes of one another, and every code is a nonempty
string over the characters 0 and 1. -/
theorem claim7_code_table_valid (text : List Char)
    (h2 : 2 ≤ (firstOccurs text).length) :
    ∃ (e : List Char) (codes : List (Char × List Char)),
      encode text = some (e, codes) ∧
      (∀ p ∈ codes, p.2 ≠ [] ∧ ∀ b ∈ p.2, b = '0' ∨ b = '1') ∧
      List.Pairwise (fun p q : Char × List Char =>
        ¬ IsPre p.2 q.2 ∧ ¬ IsPre q.2 p.2) codes := by
  obtain ⟨t, cs, hbt, hok, hch, henc, hcs, hrel⟩ := encode_spec text h2
  refine ⟨cs.flatten, genCodes t [], henc, ?_, genCodes_pairwise t []⟩
  intro p hp
  exact ⟨genCodes_ne_nil t [] p hp, genCodes_bits t [] (by simp) p hp⟩

/-- Witness for claim C7 at the concrete input ab. -/
theorem claim7_code_table_valid_witness :
    2 ≤ (firstOccurs ['a', 'b']).length ∧
    (∃ (e : List Char) (codes : List (Char × List Char)),
      encode ['a', 'b'] = some (e, codes) ∧
      (∀ p ∈ codes, p.2 ≠ [] ∧ ∀ b ∈ p.2, b = '0' ∨ b = '1') ∧
      List.Pairwise (fun p q : Char × List Char =>
        ¬ IsPre p.2 q.2 ∧ ¬ IsPre q.2 p.2) codes) :=
  ⟨by decide, claim7_code_table_valid ['a', 'b'] (by decide)⟩

/-- Claim C8 (code bug): on the nonempty input zz encode does produce the
in-order concatenation 00 of the per-character codes and its length 2 is
at least the number of characters, but decoding that bit string against
the same tree raises an AttributeError (modelled as none) instead of
reproducing zz, because the single-leaf tree has no children to walk
into. -/
theorem claim8_decode_degenerate_fails :
    encode ['z', 'z'] = some (['0', '0'], [('z', ['0'])]) ∧
    buildTree ['z', 'z'] = some (HNode.node0 (some 'z') 2) ∧
    decode ['0', '0'] (buildTree ['z', 'z']) = none :=
  ⟨rfl, rfl, rfl⟩

/-- Claim C9: for every bit string B over the characters 0 and 1, the
padding appended by compress is 8 - (length B mod 8) zero bits, always
between 1 and 8 and a full extra byte when the length is already a
multiple of 8; packing the padded string into bytes most significant bit
first and then expanding each byte back to 8 bits and dropping the last
padding bits, exactly as decompress does, recovers B. -/
theorem claim9_pack_unpack_inverse (B : List Char)
    (h : ∀ b ∈ B, b = '0' ∨ b = '1') :
    1 ≤ bitPad B ∧ bitPad B ≤ 8 ∧ (B.length % 8 = 0 → bitPad B = 8) ∧
    unpackBits (packBytes (B ++ List.replicate (bitPad B) '0')) (bitPad B) = B := by
  have hlt : B.length % 8 < 8 := Nat.mod_lt _ (by omega)
  refine ⟨by rw [bitPad]; omega, by rw [bitPad]; omega, fun h0 => by rw [bitPad, h0],
    unpackBits_packBytes B h⟩

/-- Witness for claim C9 at the concrete bit string 10110 of length 5,
whose padding is 3. -/
theorem claim9_pack_unpack_inverse_witness :
    (∀ b ∈ (['1', '0', '1', '1', '0'] : List Char), b = '0' ∨ b = '1') ∧
    (1 ≤ bitPad ['1', '0', '1', '1', '0'] ∧ bitPad ['1', '0', '1', '1', '0'] ≤ 8 ∧
      ((['1', '0', '1', '1', '0'] : List Char).length % 8 = 0 →
        bitPad ['1', '0', '1', '1', '0'] = 8) ∧
      unpackBits (packBytes (['1', '0', '1', '1', '0'] ++
        List.replicate (bitPad ['1', '0', '1', '1', '0']) '0'))
        (bitPad ['1', '0', '1', '1', '0']) = ['1', '0', '1', '1', '0']) :=
  ⟨by decide, claim9_pack_unpack_inverse ['1', '0', '1', '1', '0'] (by decide)⟩

/-- Claim C10: decode returns the empty string, without traversing the
tree and without failing, whenever the encoded bit string is empty or the
root is None. -/
theorem claim10_decode_trivial (encoded : List Char) (root : Option HNode)
    (h : encoded = [] ∨ root = none) : decode encoded root = some [] := by
  rcases h with rfl | rfl
  · cases root with
    | none => rfl
    | some r => rfl
  · rfl

/-- Witness for claim C10 at a nonempty bit string with a None root. -/
theorem claim10_decode_trivial_witness :
    ((['0', '1'] : List Char) = [] ∨ (none : Option HNode) = none) ∧
    decode ['0', '1'] none = some [] :=
  ⟨Or.inr rfl, claim10_decode_trivial ['0', '1'] none (Or.inr rfl)⟩

end Huffman
